import Mathlib

/-!
Verification of the overstock credit allocator
(src/overstock_credit_allocator.py).

The source is a single-pass pandas script.  This file gives a shallow
embedding of its allocation core: identifier normalization (`D`, `BR`),
demand aggregation (`req`, lines 60-68), supply-pool building
(lines 71-98), history consumption reconciliation (lines 100-119),
the FIFO sort (lines 121-122) and allocation loop (lines 125-139), and
the append-only history (lines 149-155).  Quantities are modelled as
`Int` (Python integers); identifier strings are modelled as `String`
with character-list operations mirroring Python string methods.
-/

/-! ### Python string primitives -/

/-- Characters removed by Python `str.strip()` with no argument
(ASCII whitespace as it occurs in this pipeline's data). -/
def isWsChar (c : Char) : Bool :=
  c = ' ' || c = '\t' || c = '\n' || c = '\r' || c = '\x0b' || c = '\x0c'

/-- `l.dropWhile p` from both ends: the char-list semantics of Python
`str.strip(chars)`. -/
def stripBothL (p : Char → Bool) (l : List Char) : List Char :=
  ((l.dropWhile p).reverse.dropWhile p).reverse

/-- Python `s.strip()` (whitespace from both ends). -/
def pyStrip (s : String) : String :=
  ⟨stripBothL isWsChar s.data⟩

/-- Python `s.strip("[]")` (all leading/trailing bracket characters). -/
def stripBrackets (s : String) : String :=
  ⟨stripBothL (fun c => c = '[' || c = ']') s.data⟩

/-- Python `s.strip('"')`. -/
def stripQuotes (s : String) : String :=
  ⟨stripBothL (fun c => c = '"') s.data⟩

/-- Python `s.split(".")[0]`: the prefix before the first dot. -/
def beforeDot (s : String) : String :=
  ⟨s.data.takeWhile (fun c => c ≠ '.')⟩

/-- Python `s.split(sep)` for a one-character separator, on char lists.
`splitOnChar c [] = [[]]`, matching `"".split(sep) == [""]`. -/
def splitOnChar (c : Char) : List Char → List (List Char)
  | [] => [[]]
  | a :: t =>
    let r := splitOnChar c t
    if a = c then [] :: r
    else
      match r with
      | [] => [[a]]
      | x :: xs => (a :: x) :: xs

/-! ### Identifier normalization (source lines 29 and 35-42) -/

/-- `D = lambda s: re.sub(r"\D", "", str(s or ""))` — keep digits only. -/
def D (s : String) : String :=
  ⟨s.data.filter Char.isDigit⟩

/-- `BR(x)` (source lines 35-42): strip whitespace; if empty return "";
strip leading/trailing brackets; drop a trailing `.`-remainder; strip
whitespace again; re-wrap in one pair of brackets.  The source comment
asserts this is idempotent. -/
def BR (x : String) : String :=
  let s := pyStrip x
  if s = "" then ""
  else "[" ++ pyStrip (beforeDot (stripBrackets s)) ++ "]"

/-! ### Timestamp canonicalization (source lines 76-77)

`pd.to_datetime(..., errors="coerce")` parses the raw date column; the
parse itself is an external collaborator, so a row carries the parse
result as `Option PyDateTime`.  `strftime("%Y-%m-%d %H:%M:%S")` then
formats it; a failed parse (`NaT`) becomes the empty string. -/

structure PyDateTime where
  year : Nat
  month : Nat
  day : Nat
  hour : Nat
  minute : Nat
  second : Nat
deriving DecidableEq

/-- Decimal digit character of `n % 10`. -/
def digitChar (n : Nat) : Char := Char.ofNat (48 + n % 10)

/-- Decimal digits of `n` (fuel-structured division by 10). -/
def natDigitsAux : Nat → Nat → List Char
  | 0, n => [digitChar n]
  | fuel + 1, n => if n < 10 then [digitChar n] else natDigitsAux fuel (n / 10) ++ [digitChar n]

def natDigits (n : Nat) : List Char := natDigitsAux n n

/-- Zero-pad on the left to width `w` (strftime field padding). -/
def padTo (w : Nat) (l : List Char) : List Char :=
  List.replicate (w - l.length) '0' ++ l

/-- `strftime("%Y-%m-%d %H:%M:%S")`. -/
def formatDt (d : PyDateTime) : String :=
  ⟨padTo 4 (natDigits d.year) ++ '-' ::
    (padTo 2 (natDigits d.month) ++ '-' ::
      (padTo 2 (natDigits d.day) ++ ' ' ::
        (padTo 2 (natDigits d.hour) ++ ':' ::
          (padTo 2 (natDigits d.minute) ++ ':' :: padTo 2 (natDigits d.second)))))⟩

/-- `dtp.dt.strftime(...).fillna("")`: a failed parse gets the empty
string as its sort key (source line 77). -/
def canonTs (d : Option PyDateTime) : String :=
  (d.map formatDt).getD ""

/-! ### Numeric coercion of cell quantities (source line 89)

`int(float(p[1]))` on the decimal-literal grammar: optional sign,
digits, optional fractional part; anything else raises and the line is
skipped (`except: continue`), modelled by `none`.  Python `int()`
truncates toward zero, so the value is the sign times the integer part. -/

def digitsToNat (l : List Char) : Nat :=
  l.foldl (fun a c => a * 10 + (c.toNat - 48)) 0

def parseQty (s : String) : Option Int :=
  match (pyStrip s).data with
  | [] => none
  | l =>
    let sl : Int × List Char :=
      match l with
      | '-' :: r => (-1, r)
      | '+' :: r => (1, r)
      | r => (1, r)
    let ip := sl.2.takeWhile Char.isDigit
    let rest := sl.2.drop ip.length
    match rest with
    | [] => if ip.isEmpty then none else some (sl.1 * (digitsToNat ip : Int))
    | '.' :: fp =>
      if fp.all Char.isDigit && !(ip.isEmpty && fp.isEmpty) then
        some (sl.1 * (digitsToNat ip : Int))
      else none
    | _ => none

/-! ### Data model -/

/-- One row of the supply pool (source line 95: columns
`upc, order_number, datetime_ordered, avail_qty`). -/
structure PoolRow where
  upc : String
  order_number : String
  datetime_ordered : String
  avail_qty : Int
deriving DecidableEq

/-- One allocation row of the current run (source line 142: columns
`Order Number, Date Time Ordered, UPC, Qty`). -/
structure AllocRow where
  order_number : String
  datetime_ordered : String
  upc : String
  qty : Int
deriving DecidableEq

/-- One persisted history row (columns `Order Number, UPC, Qty`,
quantity already coerced by `pd.to_numeric(...).fillna(0)`). -/
structure HistRow where
  order_number : String
  upc : String
  qty : Int
deriving DecidableEq

/-- `EXCLUDE_ORDERS` (source line 26). -/
def EXCLUDE_ORDERS : List String :=
  ["[108934000000000]", "[108935000000000]"]

/-! ### Demand aggregation (source lines 60-68)

Normalize the item id with `D`, coerce the quantity, keep rows with
`upc != '' and qty > 0`, group by `upc` (pandas sorts group keys
ascending) and sum. The quantity is taken post-coercion as `Int`. -/

/-- Character-list lexicographic strict order by code point: the
comparison Python uses for `str` and pandas uses in `sort_values`. -/
def ltCh : List Char → List Char → Bool
  | [], [] => false
  | [], _ :: _ => true
  | _ :: _, [] => false
  | a :: as, b :: bs =>
    if a.toNat < b.toNat then true
    else if b.toNat < a.toNat then false
    else ltCh as bs

/-- Non-strict version of `ltCh`. -/
def leCh (l m : List Char) : Bool := ltCh l m || decide (l = m)

/-- String order used for pandas groupby keys. -/
def StrLe (a b : String) : Prop := leCh a.data b.data = true

instance : DecidableRel StrLe := fun a b => Bool.decEq (leCh a.data b.data) true

/-- The `req` table (source lines 60-68): ItemId to total requested
quantity, keys sorted ascending, each key appearing once. -/
def buildReq (rows : List (String × Int)) : List (String × Int) :=
  let cleaned := (rows.map (fun p => (D p.1, p.2))).filter (fun p => decide (p.1 ≠ "" ∧ 0 < p.2))
  let keys := List.insertionSort StrLe (cleaned.map Prod.fst).dedup
  keys.map (fun u => (u, ((cleaned.filter (fun p => decide (p.1 = u))).map Prod.snd).sum))

/-! ### Supply pool building (source lines 71-98) -/

/-- One raw row of the order ledger as seen by the pool builder:
primary `Order ID`, secondary `Thank You Confirmation`, the parsed
`Date Time Ordered`, and the multi-line `Combined ISBN X Quantity +
Add Ons` cell. -/
structure LedgerRow where
  orderId : String
  thankYou : String
  dateTime : Option PyDateTime
  cell : String

/-- Order-id selection (source line 74): the secondary confirmation
field wins when non-blank after stripping, else the primary field;
the winner is normalized with `BR`. -/
def selectOrderId (r : LedgerRow) : String :=
  BR (if pyStrip r.thankYou ≠ "" then r.thankYou else r.orderId)

/-- Split the item cell into lines (source line 83:
`str(cell).replace("\r", "\n").split("\n")`). -/
def splitCellLines (cell : String) : List (List Char) :=
  splitOnChar '\n' (cell.data.map (fun c => if c = '\r' then '\n' else c))

/-- Parse one cell line (source lines 84-92): split on commas, strip
whitespace then quotes per field, normalize the item with `D`, coerce
the quantity; keep the pair when the item is non-empty and the
quantity positive. -/
def parseCellLine (ln : List Char) : Option (String × Int) :=
  match (splitOnChar ',' ln).map (fun x => stripQuotes ⟨stripBothL isWsChar x⟩) with
  | a :: b :: _ =>
    match parseQty b with
    | some q => if D a ≠ "" ∧ 0 < q then some (D a, q) else none
    | none => none
  | _ => none

/-- Pool rows contributed by one ledger row (source lines 80-93):
skipped entirely when the selected order id or the cell is empty. -/
def expandRow (r : LedgerRow) : List PoolRow :=
  if selectOrderId r = "" ∨ r.cell = "" then []
  else
    (splitCellLines r.cell).filterMap fun ln =>
      (parseCellLine ln).map fun p =>
        ⟨p.1, selectOrderId r, canonTs r.dateTime, p.2⟩

/-- The raw pool (source lines 79-95). -/
def buildPool (rows : List LedgerRow) : List PoolRow :=
  rows.flatMap expandRow

/-- Source lines 96-97: keep only requested items, drop denylisted
orders. -/
def poolAfterFilters (req : List (String × Int)) (pool0 : List PoolRow) : List PoolRow :=
  (pool0.filter (fun r => decide (r.upc ∈ req.map Prod.fst))).filter
    (fun r => decide (r.order_number ∉ EXCLUDE_ORDERS))

/-! ### History consumption reconciliation (source lines 100-119) -/

/-- Cumulative quantity the normalized history charges against the key
`(o, u)`: the history's `Order Number` is re-normalized with `BR` and
its `UPC` with `D`, denylisted orders are dropped, and the group
quantities are summed (source lines 105-114).  A key with no matching
row gets 0, the semantics of the left merge with `fillna(0)`
(lines 116-117). -/
def usedQty : List HistRow → String → String → Int
  | [], _, _ => 0
  | r :: t, o, u =>
    (if BR r.order_number ∉ EXCLUDE_ORDERS ∧ BR r.order_number = o ∧ D r.upc = u
      then r.qty else 0) + usedQty t o u

/-- Source lines 116-119: subtract the consumed quantity, clip at
zero, drop exhausted rows. -/
def applyHistory (h : List HistRow) (p : List PoolRow) : List PoolRow :=
  (p.map fun r =>
      { r with avail_qty := max 0 (r.avail_qty - usedQty h r.order_number r.upc) }).filter
    fun r => decide (0 < r.avail_qty)

/-! ### FIFO sort (source lines 121-122) -/

/-- The `sort_values(["upc", "datetime_ordered", "order_number"])`
key order: lexicographic on the three string columns, each compared
as Python compares `str`. -/
def keyLeB (a b : PoolRow) : Bool :=
  if a.upc = b.upc then
    if a.datetime_ordered = b.datetime_ordered then
      leCh a.order_number.data b.order_number.data
    else ltCh a.datetime_ordered.data b.datetime_ordered.data
  else ltCh a.upc.data b.upc.data

def KeyLe (a b : PoolRow) : Prop := keyLeB a b = true

instance : DecidableRel KeyLe := fun a b => Bool.decEq (keyLeB a b) true

def sortPool (p : List PoolRow) : List PoolRow :=
  List.insertionSort KeyLe p

/-! ### FIFO allocation (source lines 125-139) -/

/-- The inner loop for one requested item: walk the pool in order; on
each row of this item take `min(need, avail_qty)`; record the take
when positive and decrement the row; stop once `need <= 0`.  Returns
(allocation rows, remaining need, updated pool). -/
def allocOne (u : String) : Int → List PoolRow → List AllocRow × Int × List PoolRow
  | need, [] => ([], need, [])
  | need, r :: rest =>
    if need ≤ 0 then ([], need, r :: rest)
    else if r.upc = u then
      let take := min need r.avail_qty
      if 0 < take then
        let out := allocOne u (need - take) rest
        (⟨r.order_number, r.datetime_ordered, u, take⟩ :: out.1, out.2.1,
          { r with avail_qty := r.avail_qty - take } :: out.2.2)
      else
        let out := allocOne u need rest
        (out.1, out.2.1, r :: out.2.2)
    else
      let out := allocOne u need rest
      (out.1, out.2.1, r :: out.2.2)

/-- The outer loop over `req` (source lines 128-139), threading the
mutable pool; a positive remainder is recorded as unfulfilled. -/
def allocate : List (String × Int) → List PoolRow → List AllocRow × List (String × Int) × List PoolRow
  | [], p => ([], [], p)
  | (u, q) :: rest, p =>
    let o1 := allocOne u q p
    let o2 := allocate rest o1.2.2
    (o1.1 ++ o2.1, (if 0 < o1.2.1 then [(u, o1.2.1)] else []) ++ o2.2.1, o2.2.2)

/-! ### One full run -/

structure RunResult where
  alloc : List AllocRow
  unfilled : List (String × Int)
  finalPool : List PoolRow
deriving DecidableEq

/-- The pool the allocation loop iterates over: filtered, reconciled
against the history when a history file exists (`none` models an
absent file, source line 101), and FIFO-sorted. -/
def runPool (req : List (String × Int)) (pool0 : List PoolRow)
    (hist : Option (List HistRow)) : List PoolRow :=
  sortPool
    (match hist with
      | none => poolAfterFilters req pool0
      | some h => applyHistory h (poolAfterFilters req pool0))

/-- One run of the allocator core from the aggregated demand, the raw
pool, and the persisted history. -/
def run (req : List (String × Int)) (pool0 : List PoolRow)
    (hist : Option (List HistRow)) : RunResult :=
  let t := allocate req (runPool req pool0 hist)
  ⟨t.1, t.2.1, t.2.2⟩

/-- Source lines 149-155: append the run's allocation rows to the
history (string round-trip of integer quantities is the identity). -/
def appendHistory (hist : Option (List HistRow)) (a : List AllocRow) : List HistRow :=
  hist.getD [] ++ a.map fun x => ⟨x.order_number, x.upc, x.qty⟩

/-! ### Aggregate quantities used in the statements -/

/-- Total allocated quantity of a batch at one `(OrderId, ItemId)` key. -/
def sumAllocKey : List AllocRow → String → String → Int
  | [], _, _ => 0
  | a :: t, o, u =>
    (if a.order_number = o ∧ a.upc = u then a.qty else 0) + sumAllocKey t o u

/-- Total allocated quantity of a batch for one item. -/
def sumAllocUpc : List AllocRow → String → Int
  | [], _ => 0
  | a :: t, u => (if a.upc = u then a.qty else 0) + sumAllocUpc t u

/-- Total available quantity of a pool at one `(OrderId, ItemId)` key:
the "original supply quantity" of that order-item when applied to the
freshly parsed pool. -/
def sumAvailKey : List PoolRow → String → String → Int
  | [], _, _ => 0
  | r :: t, o, u =>
    (if r.order_number = o ∧ r.upc = u then r.avail_qty else 0) + sumAvailKey t o u

/-- Cumulative quantity the raw persisted ledger records at one
`(OrderId, ItemId)` key, exactly as the rows are stored. -/
def histSum : List HistRow → String → String → Int
  | [], _, _ => 0
  | r :: t, o, u =>
    (if r.order_number = o ∧ r.upc = u then r.qty else 0) + histSum t o u

/-- Total unfulfilled quantity recorded for one item. -/
def unfSum : List (String × Int) → String → Int
  | [], _ => 0
  | p :: t, u => (if p.1 = u then p.2 else 0) + unfSum t u

/-- Key-restricted sum of clipped availabilities: what one key's rows
are worth after the history deduction `c` is applied to each of them. -/
def sumClip : List PoolRow → Int → String → String → Int
  | [], _, _, _ => 0
  | r :: t, c, o, u =>
    (if r.order_number = o ∧ r.upc = u then max 0 (r.avail_qty - c) else 0) + sumClip t c o u

/-! ### Concrete inputs used by the witnesses and counterexamples -/

/-- The spec's scenario demand: item "0001112223334", 15 requested. -/
def reqEx : List (String × Int) := [("0001112223334", 15)]

/-- The spec's scenario supply pool. -/
def poolEx : List PoolRow :=
  [⟨"0001112223334", "[100]", "2024-01-01", 10⟩,
   ⟨"0001112223334", "[101]", "2024-01-05", 10⟩]

/-- The history persisted by running the scenario once from no history. -/
def histEx1 : List HistRow := appendHistory none (run reqEx poolEx none).alloc

/-- A demand exceeding the scenario supply, to exhaust it in one run. -/
def reqBig : List (String × Int) := [("0001112223334", 25)]

/-- The history persisted by running the exhausting demand once. -/
def histBig1 : List HistRow := appendHistory none (run reqBig poolEx none).alloc

/-- One order-ledger row whose raw order id "a[." normalizes to the
bracket-unstable "[a[]". -/
def ledgerBad : List LedgerRow := [⟨"a[.", "", none, "5,3"⟩]

/-- The demand matching `ledgerBad`'s only item. -/
def reqBad : List (String × Int) := buildReq [("5", 3)]

/-- The history persisted by the first run over `ledgerBad`. -/
def histBad1 : List HistRow := appendHistory none (run reqBad (buildPool ledgerBad) none).alloc

/-- A ledger row whose confirmation field is non-blank. -/
def ledgerThY : List LedgerRow := [⟨"123", "456", none, "789,2"⟩]

/-- A small well-formed prior history for the no-over-allocation witness. -/
def histSmall : List HistRow := [⟨"[100]", "0001112223334", 3⟩]


/-! ### Order theory for the sort keys -/

theorem charEq_of_toNat_eq {a b : Char} (h : a.toNat = b.toNat) : a = b := by
  have h2 := congrArg Char.ofNat h
  rwa [Char.ofNat_toNat, Char.ofNat_toNat] at h2

theorem strEq_of_dataEq {s t : String} (h : s.data = t.data) : s = t :=
  congrArg String.mk h

theorem ltCh_irrefl : ∀ l : List Char, ltCh l l = false
  | [] => rfl
  | a :: t => by simp [ltCh, ltCh_irrefl t]

theorem ltCh_nil_right : ∀ l : List Char, ltCh l [] = false
  | [] => rfl
  | _ :: _ => rfl

theorem ltCh_ne {l m : List Char} (h : ltCh l m = true) : l ≠ m := by
  intro e
  rw [e, ltCh_irrefl] at h
  exact absurd h (by simp)

theorem ltCh_trichotomy : ∀ l m : List Char, ltCh l m = true ∨ ltCh m l = true ∨ l = m
  | [], [] => Or.inr (Or.inr rfl)
  | [], _ :: _ => Or.inl rfl
  | _ :: _, [] => Or.inr (Or.inl rfl)
  | a :: as, b :: bs => by
    rcases Nat.lt_trichotomy a.toNat b.toNat with h | h | h
    · left; simp [ltCh, h]
    · have hab : a = b := charEq_of_toNat_eq h
      subst hab
      rcases ltCh_trichotomy as bs with h2 | h2 | h2
      · left; simp [ltCh, h2]
      · right; left; simp [ltCh, h2]
      · right; right; rw [h2]
    · right; left; simp [ltCh, h, Nat.lt_asymm h]

theorem ltCh_trans : ∀ l m n : List Char,
    ltCh l m = true → ltCh m n = true → ltCh l n = true
  | [], [], _, h1, _ => by simp [ltCh] at h1
  | [], _ :: _, [], _, h2 => by simp [ltCh] at h2
  | [], _ :: _, _ :: _, _, _ => rfl
  | _ :: _, [], _, h1, _ => by simp [ltCh_nil_right] at h1
  | _ :: _, _ :: _, [], _, h2 => by simp [ltCh_nil_right] at h2
  | a :: as, b :: bs, c :: cs, h1, h2 => by
    simp only [ltCh] at h1 h2 ⊢
    by_cases hab : a.toNat < b.toNat
    · by_cases hbc : b.toNat < c.toNat
      · simp [Nat.lt_trans hab hbc]
      · by_cases hcb : c.toNat < b.toNat
        · rw [if_neg hbc, if_pos hcb] at h2; exact absurd h2 (by simp)
        · have hac : a.toNat < c.toNat := by omega
          simp [hac]
    · by_cases hba : b.toNat < a.toNat
      · rw [if_neg hab, if_pos hba] at h1; exact absurd h1 (by simp)
      · rw [if_neg hab, if_neg hba] at h1
        by_cases hbc : b.toNat < c.toNat
        · have hac : a.toNat < c.toNat := by omega
          simp [hac]
        · by_cases hcb : c.toNat < b.toNat
          · rw [if_neg hbc, if_pos hcb] at h2; exact absurd h2 (by simp)
          · rw [if_neg hbc, if_neg hcb] at h2
            have h3 := ltCh_trans as bs cs h1 h2
            have hnac : ¬ a.toNat < c.toNat := by omega
            have hnca : ¬ c.toNat < a.toNat := by omega
            simp [hnac, hnca, h3]

theorem leCh_refl (l : List Char) : leCh l l = true := by
  simp [leCh]

theorem leCh_total (l m : List Char) : leCh l m = true ∨ leCh m l = true := by
  rcases ltCh_trichotomy l m with h | h | h
  · left; simp [leCh, h]
  · right; simp [leCh, h]
  · left; simp [leCh, h]

theorem leCh_trans {l m n : List Char} (h1 : leCh l m = true) (h2 : leCh m n = true) :
    leCh l n = true := by
  simp only [leCh, Bool.or_eq_true, decide_eq_true_eq] at h1 h2 ⊢
  rcases h1 with h1 | h1 <;> rcases h2 with h2 | h2
  · exact Or.inl (ltCh_trans _ _ _ h1 h2)
  · subst h2; exact Or.inl h1
  · subst h1; exact Or.inl h2
  · subst h1; exact Or.inr h2

theorem keyLe_total : ∀ a b : PoolRow, KeyLe a b ∨ KeyLe b a := by
  intro a b
  unfold KeyLe keyLeB
  by_cases h1 : a.upc = b.upc
  · rw [if_pos h1, if_pos h1.symm]
    by_cases h2 : a.datetime_ordered = b.datetime_ordered
    · rw [if_pos h2, if_pos h2.symm]
      exact leCh_total _ _
    · rw [if_neg h2, if_neg (fun e => h2 e.symm)]
      rcases ltCh_trichotomy a.datetime_ordered.data b.datetime_ordered.data with h | h | h
      · exact Or.inl h
      · exact Or.inr h
      · exact absurd (strEq_of_dataEq h) h2
  · rw [if_neg h1, if_neg (fun e => h1 e.symm)]
    rcases ltCh_trichotomy a.upc.data b.upc.data with h | h | h
    · exact Or.inl h
    · exact Or.inr h
    · exact absurd (strEq_of_dataEq h) h1

theorem keyLe_trans : ∀ a b c : PoolRow, KeyLe a b → KeyLe b c → KeyLe a c := by
  intro a b c h1 h2
  unfold KeyLe keyLeB at h1 h2 ⊢
  by_cases hab : a.upc = b.upc
  · rw [if_pos hab] at h1
    by_cases hbc : b.upc = c.upc
    · rw [if_pos hbc] at h2
      rw [if_pos (hab.trans hbc)]
      by_cases dab : a.datetime_ordered = b.datetime_ordered
      · rw [if_pos dab] at h1
        by_cases dbc : b.datetime_ordered = c.datetime_ordered
        · rw [if_pos dbc] at h2
          rw [if_pos (dab.trans dbc)]
          exact leCh_trans h1 h2
        · rw [if_neg dbc] at h2
          have dac : ¬ a.datetime_ordered = c.datetime_ordered := by rw [dab]; exact dbc
          rw [if_neg dac, dab]
          exact h2
      · rw [if_neg dab] at h1
        by_cases dbc : b.datetime_ordered = c.datetime_ordered
        · have dac : ¬ a.datetime_ordered = c.datetime_ordered := by rw [← dbc]; exact dab
          rw [if_neg dac, ← dbc]
          exact h1
        · rw [if_neg dbc] at h2
          have h3 := ltCh_trans _ _ _ h1 h2
          have dac : ¬ a.datetime_ordered = c.datetime_ordered := fun e =>
            ltCh_ne h3 (congrArg String.data e)
          rw [if_neg dac]
          exact h3
    · rw [if_neg hbc] at h2
      have hac : ¬ a.upc = c.upc := by rw [hab]; exact hbc
      rw [if_neg hac, hab]
      exact h2
  · rw [if_neg hab] at h1
    by_cases hbc : b.upc = c.upc
    · have hac : ¬ a.upc = c.upc := by rw [← hbc]; exact hab
      rw [if_neg hac, ← hbc]
      exact h1
    · rw [if_neg hbc] at h2
      have h3 := ltCh_trans _ _ _ h1 h2
      have hac : ¬ a.upc = c.upc := fun e => ltCh_ne h3 (congrArg String.data e)
      rw [if_neg hac]
      exact h3

instance : IsTotal PoolRow KeyLe := ⟨keyLe_total⟩

instance : IsTrans PoolRow KeyLe := ⟨keyLe_trans⟩

/-- Reading a `KeyLe` fact between two rows of the same item. -/
theorem keyLe_same_upc {a b : PoolRow} (h : KeyLe a b) (hu : a.upc = b.upc) :
    ltCh a.datetime_ordered.data b.datetime_ordered.data = true ∨
      (a.datetime_ordered = b.datetime_ordered ∧
        leCh a.order_number.data b.order_number.data = true) := by
  unfold KeyLe keyLeB at h
  rw [if_pos hu] at h
  by_cases d : a.datetime_ordered = b.datetime_ordered
  · right
    exact ⟨d, by rwa [if_pos d] at h⟩
  · left
    rwa [if_neg d] at h

/-! ### Aggregate-sum lemmas -/

theorem sumAllocKey_append (l1 l2 : List AllocRow) (o u : String) :
    sumAllocKey (l1 ++ l2) o u = sumAllocKey l1 o u + sumAllocKey l2 o u := by
  induction l1 with
  | nil => simp [sumAllocKey]
  | cons a t ih => simp [sumAllocKey, ih, add_assoc]

theorem sumAllocUpc_append (l1 l2 : List AllocRow) (u : String) :
    sumAllocUpc (l1 ++ l2) u = sumAllocUpc l1 u + sumAllocUpc l2 u := by
  induction l1 with
  | nil => simp [sumAllocUpc]
  | cons a t ih => simp [sumAllocUpc, ih, add_assoc]

theorem unfSum_append (l1 l2 : List (String × Int)) (u : String) :
    unfSum (l1 ++ l2) u = unfSum l1 u + unfSum l2 u := by
  induction l1 with
  | nil => simp [unfSum]
  | cons a t ih => simp [unfSum, ih, add_assoc]

theorem histSum_append (l1 l2 : List HistRow) (o u : String) :
    histSum (l1 ++ l2) o u = histSum l1 o u + histSum l2 o u := by
  induction l1 with
  | nil => simp [histSum]
  | cons a t ih => simp [histSum, ih, add_assoc]

theorem usedQty_append (l1 l2 : List HistRow) (o u : String) :
    usedQty (l1 ++ l2) o u = usedQty l1 o u + usedQty l2 o u := by
  induction l1 with
  | nil => simp [usedQty]
  | cons a t ih => simp [usedQty, ih, add_assoc]

theorem sumAllocKey_nonneg {l : List AllocRow} (h : ∀ a ∈ l, 0 ≤ a.qty) (o u : String) :
    0 ≤ sumAllocKey l o u := by
  induction l with
  | nil => simp [sumAllocKey]
  | cons a t ih =>
    have ha := h a (by simp)
    have ht := ih (fun x hx => h x (by simp [hx]))
    simp only [sumAllocKey]
    split <;> omega

theorem sumAvailKey_nonneg {p : List PoolRow} (h : ∀ r ∈ p, 0 ≤ r.avail_qty) (o u : String) :
    0 ≤ sumAvailKey p o u := by
  induction p with
  | nil => simp [sumAvailKey]
  | cons r t ih =>
    have ha := h r (by simp)
    have ht := ih (fun x hx => h x (by simp [hx]))
    simp only [sumAvailKey]
    split <;> omega

theorem histSum_nonneg {l : List HistRow} (h : ∀ r ∈ l, 0 ≤ r.qty) (o u : String) :
    0 ≤ histSum l o u := by
  induction l with
  | nil => simp [histSum]
  | cons a t ih =>
    have ha := h a (by simp)
    have ht := ih (fun x hx => h x (by simp [hx]))
    simp only [histSum]
    split <;> omega

theorem sumAllocKey_eq_zero {l : List AllocRow} {o : String}
    (h : ∀ a ∈ l, a.order_number ≠ o) (u : String) : sumAllocKey l o u = 0 := by
  induction l with
  | nil => rfl
  | cons a t ih =>
    have ha := h a (by simp)
    have ht := ih (fun x hx => h x (by simp [hx]))
    simp only [sumAllocKey, ht]
    rw [if_neg (fun hc => ha hc.1)]
    simp

theorem sumAllocUpc_eq_zero {l : List AllocRow} {u : String}
    (h : ∀ a ∈ l, a.upc ≠ u) : sumAllocUpc l u = 0 := by
  induction l with
  | nil => rfl
  | cons a t ih =>
    have ha := h a (by simp)
    have ht := ih (fun x hx => h x (by simp [hx]))
    simp only [sumAllocUpc, ht]
    rw [if_neg ha]
    simp

theorem unfSum_eq_zero {l : List (String × Int)} {u : String}
    (h : ∀ p ∈ l, p.1 ≠ u) : unfSum l u = 0 := by
  induction l with
  | nil => rfl
  | cons a t ih =>
    have ha := h a (by simp)
    have ht := ih (fun x hx => h x (by simp [hx]))
    simp only [unfSum, ht]
    rw [if_neg ha]
    simp

theorem histSum_eq_zero {l : List HistRow} {o u : String}
    (h : ∀ r ∈ l, ¬(r.order_number = o ∧ r.upc = u)) : histSum l o u = 0 := by
  induction l with
  | nil => rfl
  | cons a t ih =>
    have ha := h a (by simp)
    have ht := ih (fun x hx => h x (by simp [hx]))
    simp only [histSum, ht]
    rw [if_neg ha]
    simp

theorem sumAvailKey_eq_sum_map (p : List PoolRow) (o u : String) :
    sumAvailKey p o u =
      (p.map fun r => if r.order_number = o ∧ r.upc = u then r.avail_qty else 0).sum := by
  induction p with
  | nil => rfl
  | cons r t ih => simp [sumAvailKey, ih]

theorem sumAvailKey_perm {p q : List PoolRow} (h : p.Perm q) (o u : String) :
    sumAvailKey p o u = sumAvailKey q o u := by
  rw [sumAvailKey_eq_sum_map, sumAvailKey_eq_sum_map]
  exact (h.map _).sum_eq

theorem sumAvailKey_of_all_zero {p : List PoolRow} (h : ∀ r ∈ p, r.avail_qty = 0)
    (o u : String) : sumAvailKey p o u = 0 := by
  induction p with
  | nil => rfl
  | cons r t ih =>
    have ha := h r (by simp)
    have ht := ih (fun x hx => h x (by simp [hx]))
    simp only [sumAvailKey, ht, ha]
    split <;> simp

theorem sumAvailKey_filter_le {p : List PoolRow} (f : PoolRow → Bool)
    (h : ∀ r ∈ p, 0 ≤ r.avail_qty) (o u : String) :
    sumAvailKey (p.filter f) o u ≤ sumAvailKey p o u := by
  induction p with
  | nil => simp [sumAvailKey]
  | cons r t ih =>
    have ha := h r (by simp)
    have ht := ih (fun x hx => h x (by simp [hx]))
    by_cases hf : f r
    · simp only [List.filter_cons, hf, if_pos]
      simp only [sumAvailKey]
      omega
    · simp only [List.filter_cons, if_neg, hf]
      simp only [Bool.false_eq_true, if_false, sumAvailKey]
      split <;> omega

theorem sumAvailKey_single_le {p : List PoolRow} {r : PoolRow}
    (h : ∀ x ∈ p, 0 ≤ x.avail_qty) (hr : r ∈ p) :
    r.avail_qty ≤ sumAvailKey p r.order_number r.upc := by
  induction p with
  | nil => cases hr
  | cons x t ih =>
    have hx := h x (by simp)
    have hs := sumAvailKey_nonneg (p := t) (fun y hy => h y (List.mem_cons_of_mem x hy))
      r.order_number r.upc
    rcases List.mem_cons.mp hr with rfl | hm
    · simp only [sumAvailKey, and_self, if_true]
      omega
    · have := ih (fun y hy => h y (List.mem_cons_of_mem x hy)) hm
      simp only [sumAvailKey]
      split <;> omega

/-! ### Reconciliation lemmas -/

theorem sumClip_nonneg (p : List PoolRow) (c : Int) (o u : String) : 0 ≤ sumClip p c o u := by
  induction p with
  | nil => simp [sumClip]
  | cons r t ih =>
    simp only [sumClip]
    split <;> omega

theorem sumClip_le_max {p : List PoolRow} {c : Int} (hc : 0 ≤ c)
    (h : ∀ r ∈ p, 0 ≤ r.avail_qty) (o u : String) :
    sumClip p c o u ≤ max 0 (sumAvailKey p o u - c) := by
  induction p with
  | nil =>
    simp only [sumClip, sumAvailKey]
    omega
  | cons r t ih =>
    have ha := h r (by simp)
    have ht := ih (fun x hx => h x (List.mem_cons_of_mem r hx))
    have hs := sumAvailKey_nonneg (p := t) (fun x hx => h x (List.mem_cons_of_mem r hx)) o u
    simp only [sumClip, sumAvailKey]
    split <;> omega

theorem sumClip_single_le {p : List PoolRow} {r : PoolRow} {c : Int} (hr : r ∈ p) :
    max 0 (r.avail_qty - c) ≤ sumClip p c r.order_number r.upc := by
  induction p with
  | nil => cases hr
  | cons x t ih =>
    have hs := sumClip_nonneg t c r.order_number r.upc
    rcases List.mem_cons.mp hr with rfl | hm
    · simp only [sumClip, and_self, if_true]
      omega
    · have := ih hm
      simp only [sumClip]
      split <;> omega

theorem applyHistory_sum (h : List HistRow) (p : List PoolRow) (o u : String) :
    sumAvailKey (applyHistory h p) o u = sumClip p (usedQty h o u) o u := by
  induction p with
  | nil => rfl
  | cons r t ih =>
    simp only [applyHistory, List.map_cons, List.filter_cons] at ih ⊢
    by_cases hg : 0 < max 0 (r.avail_qty - usedQty h r.order_number r.upc)
    · rw [if_pos (by simpa using hg)]
      simp only [sumAvailKey, sumClip, ih]
      by_cases hk : r.order_number = o ∧ r.upc = u
      · rw [if_pos hk, if_pos hk, hk.1, hk.2]
      · rw [if_neg hk, if_neg hk]
    · rw [if_neg (by simpa using hg)]
      simp only [sumClip, ih]
      by_cases hk : r.order_number = o ∧ r.upc = u
      · rw [if_pos hk]
        rw [hk.1, hk.2] at hg
        omega
      · rw [if_neg hk]
        omega

theorem applyHistory_pos {h : List HistRow} {p : List PoolRow} {r : PoolRow}
    (hr : r ∈ applyHistory h p) : 0 < r.avail_qty := by
  have := List.of_mem_filter hr
  simpa using this

theorem applyHistory_from {h : List HistRow} {p : List PoolRow} {r : PoolRow}
    (hr : r ∈ applyHistory h p) :
    ∃ x ∈ p, r.order_number = x.order_number ∧ r.upc = x.upc ∧
      r.datetime_ordered = x.datetime_ordered ∧
      r.avail_qty = max 0 (x.avail_qty - usedQty h x.order_number x.upc) := by
  have hm := List.mem_of_mem_filter hr
  rcases List.mem_map.mp hm with ⟨x, hx, rfl⟩
  exact ⟨x, hx, rfl, rfl, rfl, rfl⟩

/-! ### Sort lemmas -/

theorem sortPool_perm (p : List PoolRow) : (sortPool p).Perm p :=
  List.perm_insertionSort KeyLe p

theorem sortPool_sorted (p : List PoolRow) : List.Sorted KeyLe (sortPool p) :=
  List.sorted_insertionSort KeyLe p

theorem sorted_rel_get? {l : List PoolRow} (hs : List.Sorted KeyLe l) {i j : Nat}
    {a b : PoolRow} (hij : i < j) (ha : l.get? i = some a) (hb : l.get? j = some b) :
    KeyLe a b := by
  rcases List.get?_eq_some.mp ha with ⟨hi, rfl⟩
  rcases List.get?_eq_some.mp hb with ⟨hj, rfl⟩
  exact List.pairwise_iff_get.mp hs ⟨i, hi⟩ ⟨j, hj⟩ hij

/-! ### Lemmas about the inner allocation loop -/

theorem allocOne_stop {u : String} {need : Int} (h : need ≤ 0) :
    ∀ p : List PoolRow, allocOne u need p = ([], need, p)
  | [] => by simp [allocOne]
  | r :: t => by simp [allocOne, h]

theorem allocOne_alloc_upc (u : String) : ∀ (need : Int) (p : List PoolRow),
    ∀ a ∈ (allocOne u need p).1, a.upc = u
  | _, [] => by simp [allocOne]
  | need, r :: t => by
    by_cases h0 : need ≤ 0
    · simp [allocOne, h0]
    · by_cases hu : r.upc = u
      · by_cases ht : 0 < min need r.avail_qty
        · simp only [allocOne, if_neg h0, if_pos hu, if_pos ht]
          intro a ha
          rcases List.mem_cons.mp ha with rfl | hm
          · rfl
          · exact allocOne_alloc_upc u (need - min need r.avail_qty) t a hm
        · simp only [allocOne, if_neg h0, if_pos hu, if_neg ht]
          exact allocOne_alloc_upc u need t
      · simp only [allocOne, if_neg h0, if_neg hu]
        exact allocOne_alloc_upc u need t

theorem allocOne_alloc_pos (u : String) : ∀ (need : Int) (p : List PoolRow),
    ∀ a ∈ (allocOne u need p).1, 0 < a.qty
  | _, [] => by simp [allocOne]
  | need, r :: t => by
    by_cases h0 : need ≤ 0
    · simp [allocOne, h0]
    · by_cases hu : r.upc = u
      · by_cases ht : 0 < min need r.avail_qty
        · simp only [allocOne, if_neg h0, if_pos hu, if_pos ht]
          intro a ha
          rcases List.mem_cons.mp ha with rfl | hm
          · exact ht
          · exact allocOne_alloc_pos u (need - min need r.avail_qty) t a hm
        · simp only [allocOne, if_neg h0, if_pos hu, if_neg ht]
          exact allocOne_alloc_pos u need t
      · simp only [allocOne, if_neg h0, if_neg hu]
        exact allocOne_alloc_pos u need t

theorem allocOne_alloc_from (u : String) : ∀ (need : Int) (p : List PoolRow),
    ∀ a ∈ (allocOne u need p).1, ∃ r ∈ p,
      a.order_number = r.order_number ∧ a.datetime_ordered = r.datetime_ordered ∧ r.upc = u
  | _, [] => by simp [allocOne]
  | need, r :: t => by
    by_cases h0 : need ≤ 0
    · simp [allocOne, h0]
    · by_cases hu : r.upc = u
      · by_cases ht : 0 < min need r.avail_qty
        · simp only [allocOne, if_neg h0, if_pos hu, if_pos ht]
          intro a ha
          rcases List.mem_cons.mp ha with rfl | hm
          · exact ⟨r, by simp, rfl, rfl, hu⟩
          · rcases allocOne_alloc_from u (need - min need r.avail_qty) t a hm with ⟨x, hx, he⟩
            exact ⟨x, by simp [hx], he⟩
        · simp only [allocOne, if_neg h0, if_pos hu, if_neg ht]
          intro a ha
          rcases allocOne_alloc_from u need t a ha with ⟨x, hx, he⟩
          exact ⟨x, by simp [hx], he⟩
      · simp only [allocOne, if_neg h0, if_neg hu]
        intro a ha
        rcases allocOne_alloc_from u need t a ha with ⟨x, hx, he⟩
        exact ⟨x, by simp [hx], he⟩

theorem allocOne_upc_accounting (u : String) : ∀ (need : Int) (p : List PoolRow),
    sumAllocUpc (allocOne u need p).1 u + (allocOne u need p).2.1 = need
  | need, [] => by simp [allocOne, sumAllocUpc]
  | need, r :: t => by
    by_cases h0 : need ≤ 0
    · simp [allocOne, h0, sumAllocUpc]
    · by_cases hu : r.upc = u
      · by_cases ht : 0 < min need r.avail_qty
        · have ih := allocOne_upc_accounting u (need - min need r.avail_qty) t
          simp only [allocOne, if_neg h0, if_pos hu, if_pos ht, sumAllocUpc, if_pos rfl,
            if_true] at ih ⊢
          omega
        · have ih := allocOne_upc_accounting u need t
          simp only [allocOne, if_neg h0, if_pos hu, if_neg ht]
          exact ih
      · have ih := allocOne_upc_accounting u need t
        simp only [allocOne, if_neg h0, if_neg hu]
        exact ih

theorem allocOne_need_nonneg (u : String) : ∀ (need : Int) (p : List PoolRow),
    0 ≤ need → 0 ≤ (allocOne u need p).2.1
  | _, [], h => h
  | need, r :: t, h => by
    by_cases h0 : need ≤ 0
    · rw [allocOne_stop h0]
      exact h
    · by_cases hu : r.upc = u
      · by_cases ht : 0 < min need r.avail_qty
        · have hm := min_le_left need r.avail_qty
          have ih := allocOne_need_nonneg u (need - min need r.avail_qty) t (by omega)
          simp only [allocOne, if_neg h0, if_pos hu, if_pos ht]
          exact ih
        · have ih := allocOne_need_nonneg u need t h
          simp only [allocOne, if_neg h0, if_pos hu, if_neg ht]
          exact ih
      · have ih := allocOne_need_nonneg u need t h
        simp only [allocOne, if_neg h0, if_neg hu]
        exact ih

theorem allocOne_key_conserve (u o u' : String) : ∀ (need : Int) (p : List PoolRow),
    sumAllocKey (allocOne u need p).1 o u' + sumAvailKey (allocOne u need p).2.2 o u' =
      sumAvailKey p o u'
  | need, [] => by simp [allocOne, sumAllocKey, sumAvailKey]
  | need, r :: t => by
    by_cases h0 : need ≤ 0
    · simp [allocOne, h0, sumAllocKey]
    · by_cases hu : r.upc = u
      · by_cases ht : 0 < min need r.avail_qty
        · have ih := allocOne_key_conserve u o u' (need - min need r.avail_qty) t
          have hm := min_le_right need r.avail_qty
          simp only [allocOne, if_neg h0, if_pos hu, if_pos ht, sumAllocKey, sumAvailKey]
          by_cases hc : r.order_number = o ∧ r.upc = u'
          · rw [if_pos ⟨hc.1, hu ▸ hc.2⟩, if_pos hc, if_pos hc]
            omega
          · rw [if_neg (fun e => hc ⟨e.1, hu ▸ e.2⟩), if_neg hc, if_neg hc]
            omega
        · have ih := allocOne_key_conserve u o u' need t
          simp only [allocOne, if_neg h0, if_pos hu, if_neg ht, sumAvailKey]
          omega
      · have ih := allocOne_key_conserve u o u' need t
        simp only [allocOne, if_neg h0, if_neg hu, sumAvailKey]
        omega

theorem allocOne_fp_nonneg (u : String) : ∀ (need : Int) (p : List PoolRow),
    (∀ r ∈ p, 0 ≤ r.avail_qty) → ∀ r ∈ (allocOne u need p).2.2, 0 ≤ r.avail_qty
  | _, [], _ => by simp [allocOne]
  | need, r :: t, h => by
    have hr := h r (by simp)
    have htl : ∀ x ∈ t, 0 ≤ x.avail_qty := fun x hx => h x (List.mem_cons_of_mem r hx)
    by_cases h0 : need ≤ 0
    · simpa [allocOne, h0] using h
    · by_cases hu : r.upc = u
      · by_cases ht : 0 < min need r.avail_qty
        · simp only [allocOne, if_neg h0, if_pos hu, if_pos ht]
          intro x hx
          rcases List.mem_cons.mp hx with rfl | hm
          · show 0 ≤ r.avail_qty - min need r.avail_qty
            have hm := min_le_right need r.avail_qty
            omega
          · exact allocOne_fp_nonneg u (need - min need r.avail_qty) t htl x hm
        · simp only [allocOne, if_neg h0, if_pos hu, if_neg ht]
          intro x hx
          rcases List.mem_cons.mp hx with rfl | hm
          · exact hr
          · exact allocOne_fp_nonneg u need t htl x hm
      · simp only [allocOne, if_neg h0, if_neg hu]
        intro x hx
        rcases List.mem_cons.mp hx with rfl | hm
        · exact hr
        · exact allocOne_fp_nonneg u need t htl x hm

theorem allocOne_fp_from (u : String) : ∀ (need : Int) (p : List PoolRow),
    ∀ r' ∈ (allocOne u need p).2.2, ∃ r ∈ p,
      r'.order_number = r.order_number ∧ r'.upc = r.upc ∧
        r'.datetime_ordered = r.datetime_ordered
  | _, [] => by simp [allocOne]
  | need, r :: t => by
    by_cases h0 : need ≤ 0
    · simp only [allocOne_stop h0]
      intro x hx
      exact ⟨x, hx, rfl, rfl, rfl⟩
    · by_cases hu : r.upc = u
      · by_cases ht : 0 < min need r.avail_qty
        · simp only [allocOne, if_neg h0, if_pos hu, if_pos ht]
          intro x hx
          rcases List.mem_cons.mp hx with rfl | hm
          · exact ⟨r, by simp, rfl, rfl, rfl⟩
          · rcases allocOne_fp_from u (need - min need r.avail_qty) t x hm with ⟨y, hy, he⟩
            exact ⟨y, by simp [hy], he⟩
        · simp only [allocOne, if_neg h0, if_pos hu, if_neg ht]
          intro x hx
          rcases List.mem_cons.mp hx with rfl | hm
          · exact ⟨x, by simp, rfl, rfl, rfl⟩
          · rcases allocOne_fp_from u need t x hm with ⟨y, hy, he⟩
            exact ⟨y, by simp [hy], he⟩
      · simp only [allocOne, if_neg h0, if_neg hu]
        intro x hx
        rcases List.mem_cons.mp hx with rfl | hm
        · exact ⟨x, by simp, rfl, rfl, rfl⟩
        · rcases allocOne_fp_from u need t x hm with ⟨y, hy, he⟩
          exact ⟨y, by simp [hy], he⟩

theorem allocOne_length (u : String) : ∀ (need : Int) (p : List PoolRow),
    (allocOne u need p).2.2.length = p.length
  | _, [] => by simp [allocOne]
  | need, r :: t => by
    by_cases h0 : need ≤ 0
    · simp [allocOne_stop h0]
    · by_cases hu : r.upc = u
      · by_cases ht : 0 < min need r.avail_qty
        · have ih := allocOne_length u (need - min need r.avail_qty) t
          simp only [allocOne, if_neg h0, if_pos hu, if_pos ht, List.length_cons, ih]
        · have ih := allocOne_length u need t
          simp only [allocOne, if_neg h0, if_pos hu, if_neg ht, List.length_cons, ih]
      · have ih := allocOne_length u need t
        simp only [allocOne, if_neg h0, if_neg hu, List.length_cons, ih]

theorem allocOne_get? (u : String) : ∀ (need : Int) (p : List PoolRow) (i : Nat)
    (r r' : PoolRow), p.get? i = some r → (allocOne u need p).2.2.get? i = some r' →
    r'.order_number = r.order_number ∧ r'.datetime_ordered = r.datetime_ordered ∧
      r'.upc = r.upc ∧ r'.avail_qty ≤ r.avail_qty ∧ (r'.avail_qty < r.avail_qty → r.upc = u)
  | _, [], i, r, r', h1, _ => by simp at h1
  | need, x :: t, i, r, r', h1, h2 => by
    by_cases h0 : need ≤ 0
    · rw [allocOne_stop h0, h1] at h2
      injection h2 with h2
      subst h2
      exact ⟨rfl, rfl, rfl, le_refl _, fun hlt => absurd hlt (lt_irrefl _)⟩
    · by_cases hu : x.upc = u
      · by_cases ht : 0 < min need x.avail_qty
        · simp only [allocOne, if_neg h0, if_pos hu, if_pos ht] at h2
          cases i with
          | zero =>
            simp only [List.get?_cons_zero] at h1 h2
            injection h1 with h1
            injection h2 with h2
            subst h1
            subst h2
            refine ⟨rfl, rfl, rfl, ?_, fun _ => hu⟩
            show x.avail_qty - min need x.avail_qty ≤ x.avail_qty
            omega
          | succ n =>
            simp only [List.get?_cons_succ] at h1 h2
            exact allocOne_get? u (need - min need x.avail_qty) t n r r' h1 h2
        · simp only [allocOne, if_neg h0, if_pos hu, if_neg ht] at h2
          cases i with
          | zero =>
            simp only [List.get?_cons_zero] at h1 h2
            injection h1 with h1
            injection h2 with h2
            subst h1
            subst h2
            exact ⟨rfl, rfl, rfl, le_refl _, fun hlt => absurd hlt (lt_irrefl _)⟩
          | succ n =>
            simp only [List.get?_cons_succ] at h1 h2
            exact allocOne_get? u need t n r r' h1 h2
      · simp only [allocOne, if_neg h0, if_neg hu] at h2
        cases i with
        | zero =>
          simp only [List.get?_cons_zero] at h1 h2
          injection h1 with h1
          injection h2 with h2
          subst h1
          subst h2
          exact ⟨rfl, rfl, rfl, le_refl _, fun hlt => absurd hlt (lt_irrefl _)⟩
        | succ n =>
          simp only [List.get?_cons_succ] at h1 h2
          exact allocOne_get? u need t n r r' h1 h2

theorem allocOne_exhaust (u : String) : ∀ (need : Int) (p : List PoolRow) (i j : Nat)
    (ri rj ri' rj' : PoolRow), i < j →
    p.get? i = some ri → p.get? j = some rj →
    (allocOne u need p).2.2.get? i = some ri' → (allocOne u need p).2.2.get? j = some rj' →
    ri.upc = u → rj'.avail_qty < rj.avail_qty → ri'.avail_qty ≤ 0
  | _, [], i, _, _, _, _, _, _, hi, _, _, _, _, _ => by simp at hi
  | need, x :: t, i, j, ri, rj, ri', rj', hij, hi, hj, hi', hj', hu, hlt => by
    by_cases h0 : need ≤ 0
    · rw [allocOne_stop h0, hj] at hj'
      injection hj' with hj'
      subst hj'
      exact absurd hlt (lt_irrefl _)
    · by_cases hxu : x.upc = u
      · by_cases ht : 0 < min need x.avail_qty
        · simp only [allocOne, if_neg h0, if_pos hxu, if_pos ht] at hi' hj'
          cases j with
          | zero => omega
          | succ m =>
            simp only [List.get?_cons_succ] at hj hj'
            cases i with
            | zero =>
              simp only [List.get?_cons_zero] at hi hi'
              injection hi with hi
              injection hi' with hi'
              subst hi
              subst hi'
              show x.avail_qty - min need x.avail_qty ≤ 0
              by_cases h2 : need - min need x.avail_qty ≤ 0
              · rw [allocOne_stop h2, hj] at hj'
                injection hj' with hj'
                subst hj'
                exact absurd hlt (lt_irrefl _)
              · omega
            | succ n =>
              simp only [List.get?_cons_succ] at hi hi'
              exact allocOne_exhaust u (need - min need x.avail_qty) t n m ri rj ri' rj'
                (by omega) hi hj hi' hj' hu hlt
        · simp only [allocOne, if_neg h0, if_pos hxu, if_neg ht] at hi' hj'
          cases j with
          | zero => omega
          | succ m =>
            simp only [List.get?_cons_succ] at hj hj'
            cases i with
            | zero =>
              simp only [List.get?_cons_zero] at hi hi'
              injection hi with hi
              injection hi' with hi'
              subst hi
              subst hi'
              omega
            | succ n =>
              simp only [List.get?_cons_succ] at hi hi'
              exact allocOne_exhaust u need t n m ri rj ri' rj' (by omega) hi hj hi' hj' hu hlt
      · simp only [allocOne, if_neg h0, if_neg hxu] at hi' hj'
        cases j with
        | zero => omega
        | succ m =>
          simp only [List.get?_cons_succ] at hj hj'
          cases i with
          | zero =>
            simp only [List.get?_cons_zero] at hi
            injection hi with hi
            subst hi
            exact absurd hu hxu
          | succ n =>
            simp only [List.get?_cons_succ] at hi hi'
            exact allocOne_exhaust u need t n m ri rj ri' rj' (by omega) hi hj hi' hj' hu hlt

/-! ### Lemmas about the outer allocation loop -/

theorem allocate_length : ∀ (req : List (String × Int)) (p : List PoolRow),
    (allocate req p).2.2.length = p.length
  | [], _ => rfl
  | (u, q) :: rest, p => by
    simp only [allocate]
    rw [allocate_length rest (allocOne u q p).2.2, allocOne_length u q p]

theorem allocate_mid_get? {u : String} {q : Int}
    {p : List PoolRow} {i : Nat} {r : PoolRow} (h1 : p.get? i = some r) :
    ∃ s, (allocOne u q p).2.2.get? i = some s := by
  cases ho : (allocOne u q p).2.2.get? i with
  | some s => exact ⟨s, rfl⟩
  | none =>
    have hlen := allocOne_length u q p
    have h1l : i < p.length := (List.get?_eq_some.mp h1).1
    have h2l := List.get?_eq_none.mp ho
    omega

theorem allocate_get? : ∀ (req : List (String × Int)) (p : List PoolRow) (i : Nat)
    (r r' : PoolRow), p.get? i = some r → (allocate req p).2.2.get? i = some r' →
    r'.order_number = r.order_number ∧ r'.datetime_ordered = r.datetime_ordered ∧
      r'.upc = r.upc ∧ r'.avail_qty ≤ r.avail_qty
  | [], p, i, r, r', h1, h2 => by
    simp only [allocate] at h2
    rw [h1] at h2
    injection h2 with h2
    subst h2
    exact ⟨rfl, rfl, rfl, le_refl _⟩
  | (u, q) :: rest, p, i, r, r', h1, h2 => by
    simp only [allocate] at h2
    obtain ⟨s, hs⟩ := allocate_mid_get? (u := u) (q := q) h1
    have e1 := allocOne_get? u q p i r s h1 hs
    have e2 := allocate_get? rest (allocOne u q p).2.2 i s r' hs h2
    exact ⟨e2.1.trans e1.1, e2.2.1.trans e1.2.1, e2.2.2.1.trans e1.2.2.1,
      le_trans e2.2.2.2 e1.2.2.2.1⟩

theorem allocate_exhaust : ∀ (req : List (String × Int)) (p : List PoolRow) (i j : Nat)
    (ri rj ri' rj' : PoolRow), i < j →
    p.get? i = some ri → p.get? j = some rj →
    (allocate req p).2.2.get? i = some ri' → (allocate req p).2.2.get? j = some rj' →
    ri.upc = rj.upc → rj'.avail_qty < rj.avail_qty → ri'.avail_qty ≤ 0
  | [], p, i, j, ri, rj, ri', rj', _, _, hj, _, hj', _, hlt => by
    simp only [allocate] at hj'
    rw [hj] at hj'
    injection hj' with hj'
    subst hj'
    exact absurd hlt (lt_irrefl _)
  | (u, q) :: rest, p, i, j, ri, rj, ri', rj', hij, hi, hj, hi', hj', huu, hlt => by
    simp only [allocate] at hi' hj'
    obtain ⟨si, hsi⟩ := allocate_mid_get? (u := u) (q := q) hi
    obtain ⟨sj, hsj⟩ := allocate_mid_get? (u := u) (q := q) hj
    have ei := allocOne_get? u q p i ri si hi hsi
    have ej := allocOne_get? u q p j rj sj hj hsj
    by_cases htj : sj.avail_qty < rj.avail_qty
    · have hju : rj.upc = u := ej.2.2.2.2 htj
      have hiu : ri.upc = u := huu.trans hju
      have hsi0 : si.avail_qty ≤ 0 :=
        allocOne_exhaust u q p i j ri rj si sj hij hi hj hsi hsj hiu htj
      have em := allocate_get? rest (allocOne u q p).2.2 i si ri' hsi hi'
      exact le_trans em.2.2.2 hsi0
    · have hee : sj.avail_qty = rj.avail_qty := le_antisymm ej.2.2.2.1 (not_lt.mp htj)
      have hlt2 : rj'.avail_qty < sj.avail_qty := by omega
      have hupc : si.upc = sj.upc := by
        rw [ei.2.2.1, ej.2.2.1]
        exact huu
      exact allocate_exhaust rest (allocOne u q p).2.2 i j si sj ri' rj' hij hsi hsj
        hi' hj' hupc hlt2

theorem allocate_fp_nonneg : ∀ (req : List (String × Int)) (p : List PoolRow),
    (∀ r ∈ p, 0 ≤ r.avail_qty) → ∀ r ∈ (allocate req p).2.2, 0 ≤ r.avail_qty
  | [], p, h => h
  | (u, q) :: rest, p, h => by
    simp only [allocate]
    exact allocate_fp_nonneg rest (allocOne u q p).2.2 (allocOne_fp_nonneg u q p h)

theorem allocate_alloc_pos : ∀ (req : List (String × Int)) (p : List PoolRow),
    ∀ a ∈ (allocate req p).1, 0 < a.qty
  | [], _ => by simp [allocate]
  | (u, q) :: rest, p => by
    simp only [allocate]
    intro a ha
    rcases List.mem_append.mp ha with hm | hm
    · exact allocOne_alloc_pos u q p a hm
    · exact allocate_alloc_pos rest (allocOne u q p).2.2 a hm

theorem allocate_alloc_upc_mem : ∀ (req : List (String × Int)) (p : List PoolRow),
    ∀ a ∈ (allocate req p).1, a.upc ∈ req.map Prod.fst
  | [], _ => by simp [allocate]
  | (u, q) :: rest, p => by
    simp only [allocate]
    intro a ha
    rcases List.mem_append.mp ha with hm | hm
    · simp [allocOne_alloc_upc u q p a hm]
    · simp only [List.map_cons, List.mem_cons]
      exact Or.inr (allocate_alloc_upc_mem rest (allocOne u q p).2.2 a hm)

theorem allocate_unf_fst_mem : ∀ (req : List (String × Int)) (p : List PoolRow),
    ∀ x ∈ (allocate req p).2.1, x.1 ∈ req.map Prod.fst
  | [], _ => by simp [allocate]
  | (u, q) :: rest, p => by
    simp only [allocate]
    intro x hx
    rcases List.mem_append.mp hx with hm | hm
    · simp only [List.map_cons, List.mem_cons]
      left
      by_cases hn : 0 < (allocOne u q p).2.1
      · rw [if_pos hn] at hm
        simp at hm
        subst hm
        rfl
      · rw [if_neg hn] at hm
        simp at hm
    · simp only [List.map_cons, List.mem_cons]
      exact Or.inr (allocate_unf_fst_mem rest (allocOne u q p).2.2 x hm)

theorem allocate_alloc_from : ∀ (req : List (String × Int)) (p : List PoolRow),
    ∀ a ∈ (allocate req p).1, ∃ r ∈ p, a.order_number = r.order_number ∧ a.upc = r.upc
  | [], _ => by simp [allocate]
  | (u, q) :: rest, p => by
    simp only [allocate]
    intro a ha
    rcases List.mem_append.mp ha with hm | hm
    · rcases allocOne_alloc_from u q p a hm with ⟨r, hr, he, _, hu3⟩
      exact ⟨r, hr, he, (allocOne_alloc_upc u q p a hm).trans hu3.symm⟩
    · rcases allocate_alloc_from rest (allocOne u q p).2.2 a hm with ⟨r, hr, he, hu⟩
      rcases allocOne_fp_from u q p r hr with ⟨x, hx, he2, hu2, _⟩
      exact ⟨x, hx, he.trans he2, hu.trans hu2⟩

theorem allocate_key_conserve : ∀ (req : List (String × Int)) (p : List PoolRow)
    (o u' : String),
    sumAllocKey (allocate req p).1 o u' + sumAvailKey (allocate req p).2.2 o u' =
      sumAvailKey p o u'
  | [], p, o, u' => by simp [allocate, sumAllocKey]
  | (u, q) :: rest, p, o, u' => by
    have h1 := allocOne_key_conserve u o u' q p
    have h2 := allocate_key_conserve rest (allocOne u q p).2.2 o u'
    simp only [allocate, sumAllocKey_append]
    omega

theorem allocate_accounting : ∀ (req : List (String × Int)) (p : List PoolRow)
    (u : String) (q : Int), (u, q) ∈ req → 0 ≤ q → (req.map Prod.fst).Nodup →
    sumAllocUpc (allocate req p).1 u + unfSum (allocate req p).2.1 u = q
  | [], _, _, _, hm, _, _ => by cases hm
  | (v, w) :: rest, p, u, q, hm, hq, hnd => by
    have hnd1 : v ∉ rest.map Prod.fst := by
      simp only [List.map_cons, List.nodup_cons] at hnd
      exact hnd.1
    have hnd2 : (rest.map Prod.fst).Nodup := by
      simp only [List.map_cons, List.nodup_cons] at hnd
      exact hnd.2
    rcases List.mem_cons.mp hm with he | hm2
    · injection he with he1 he2
      subst he1
      subst he2
      have hacc := allocOne_upc_accounting u q p
      have hz1 : sumAllocUpc (allocate rest (allocOne u q p).2.2).1 u = 0 := by
        apply sumAllocUpc_eq_zero
        intro a ha hau
        exact hnd1 (hau ▸ allocate_alloc_upc_mem rest (allocOne u q p).2.2 a ha)
      have hz2 : unfSum (allocate rest (allocOne u q p).2.2).2.1 u = 0 := by
        apply unfSum_eq_zero
        intro x hx hxu
        exact hnd1 (hxu ▸ allocate_unf_fst_mem rest (allocOne u q p).2.2 x hx)
      have hn := allocOne_need_nonneg u q p hq
      simp only [allocate, sumAllocUpc_append, unfSum_append, hz1, hz2]
      by_cases hpos : 0 < (allocOne u q p).2.1
      · rw [if_pos hpos]
        simp only [unfSum, if_true]
        omega
      · rw [if_neg hpos]
        simp only [unfSum]
        omega
    · have hvu : v ≠ u := by
        intro e
        subst e
        exact hnd1 (List.mem_map.mpr ⟨(v, q), hm2, rfl⟩)
      have hz1 : sumAllocUpc (allocOne v w p).1 u = 0 := by
        apply sumAllocUpc_eq_zero
        intro a ha
        rw [allocOne_alloc_upc v w p a ha]
        exact hvu
      have ih := allocate_accounting rest (allocOne v w p).2.2 u q hm2 hq hnd2
      simp only [allocate, sumAllocUpc_append, unfSum_append, hz1]
      by_cases hpos : 0 < (allocOne v w p).2.1
      · rw [if_pos hpos]
        simp only [unfSum]
        rw [if_neg hvu]
        omega
      · rw [if_neg hpos]
        simp only [unfSum]
        omega

/-! ### Pipeline-level lemmas -/

theorem poolAfterFilters_sub {req : List (String × Int)} {pool0 : List PoolRow} {r : PoolRow}
    (h : r ∈ poolAfterFilters req pool0) : r ∈ pool0 :=
  List.mem_of_mem_filter (List.mem_of_mem_filter h)

theorem poolAfterFilters_not_excluded {req : List (String × Int)} {pool0 : List PoolRow}
    {r : PoolRow} (h : r ∈ poolAfterFilters req pool0) :
    r.order_number ∉ EXCLUDE_ORDERS := by
  have := List.of_mem_filter h
  simpa using this

theorem poolAfterFilters_nonneg {req : List (String × Int)} {pool0 : List PoolRow}
    (hpool : ∀ r ∈ pool0, 0 ≤ r.avail_qty) :
    ∀ r ∈ poolAfterFilters req pool0, 0 ≤ r.avail_qty :=
  fun r hr => hpool r (poolAfterFilters_sub hr)

/-- Every row of the pool the allocator iterates over descends from a
filtered pool row with the same identifying fields. -/
theorem runPool_src {req : List (String × Int)} {pool0 : List PoolRow}
    {hist : Option (List HistRow)} {r : PoolRow} (h : r ∈ runPool req pool0 hist) :
    ∃ x ∈ poolAfterFilters req pool0, r.order_number = x.order_number ∧ r.upc = x.upc ∧
      r.datetime_ordered = x.datetime_ordered := by
  have hm : r ∈ (match hist with
      | none => poolAfterFilters req pool0
      | some h => applyHistory h (poolAfterFilters req pool0)) :=
    (sortPool_perm _).subset h
  cases hist with
  | none => exact ⟨r, hm, rfl, rfl, rfl⟩
  | some h0 =>
    rcases applyHistory_from hm with ⟨x, hx, e1, e2, e3, _⟩
    exact ⟨x, hx, e1, e2, e3⟩

theorem runPool_nonneg {req : List (String × Int)} {pool0 : List PoolRow}
    {hist : Option (List HistRow)} (hpool : ∀ r ∈ pool0, 0 ≤ r.avail_qty) :
    ∀ r ∈ runPool req pool0 hist, 0 ≤ r.avail_qty := by
  intro r h
  have hm : r ∈ (match hist with
      | none => poolAfterFilters req pool0
      | some h => applyHistory h (poolAfterFilters req pool0)) :=
    (sortPool_perm _).subset h
  cases hist with
  | none => exact poolAfterFilters_nonneg hpool r hm
  | some h0 => exact le_of_lt (applyHistory_pos hm)

theorem run_alloc_src {req : List (String × Int)} {pool0 : List PoolRow}
    {hist : Option (List HistRow)} {a : AllocRow} (h : a ∈ (run req pool0 hist).alloc) :
    ∃ x ∈ poolAfterFilters req pool0, a.order_number = x.order_number ∧ a.upc = x.upc := by
  rcases allocate_alloc_from req (runPool req pool0 hist) a h with ⟨r, hr, he, hu⟩
  rcases runPool_src hr with ⟨x, hx, e1, e2, _⟩
  exact ⟨x, hx, he.trans e1, hu.trans e2⟩

theorem run_alloc_not_excluded {req : List (String × Int)} {pool0 : List PoolRow}
    {hist : Option (List HistRow)} {a : AllocRow} (h : a ∈ (run req pool0 hist).alloc) :
    a.order_number ∉ EXCLUDE_ORDERS := by
  rcases run_alloc_src h with ⟨x, hx, he, _⟩
  rw [he]
  exact poolAfterFilters_not_excluded hx

theorem histSum_map_alloc (b : List AllocRow) (o u : String) :
    histSum (b.map fun x => ⟨x.order_number, x.upc, x.qty⟩) o u = sumAllocKey b o u := by
  induction b with
  | nil => rfl
  | cons a t ih => simp [histSum, sumAllocKey, ih]

theorem usedQty_eq_histSum {h : List HistRow}
    (hfix : ∀ r ∈ h, BR r.order_number = r.order_number ∧ D r.upc = r.upc)
    {o : String} (ho : o ∉ EXCLUDE_ORDERS) (u : String) :
    usedQty h o u = histSum h o u := by
  induction h with
  | nil => rfl
  | cons r t ih =>
    have hr := hfix r (by simp)
    have ht := ih (fun x hx => hfix x (List.mem_cons_of_mem r hx))
    simp only [usedQty, histSum, hr.1, hr.2, ht]
    by_cases hk : r.order_number = o ∧ r.upc = u
    · rw [if_pos ⟨hk.1 ▸ ho, hk.1, hk.2⟩, if_pos hk]
    · rw [if_neg (fun e => hk ⟨e.2.1, e.2.2⟩), if_neg hk]

theorem usedQty_map_alloc {b : List AllocRow}
    (hb : ∀ a ∈ b, BR a.order_number = a.order_number ∧ D a.upc = a.upc ∧
      a.order_number ∉ EXCLUDE_ORDERS) (o u : String) :
    usedQty (b.map fun x => ⟨x.order_number, x.upc, x.qty⟩) o u = sumAllocKey b o u := by
  induction b with
  | nil => rfl
  | cons a t ih =>
    have ha := hb a (by simp)
    have ht := ih (fun x hx => hb x (List.mem_cons_of_mem a hx))
    simp only [List.map_cons, usedQty, sumAllocKey, ha.1, ha.2.1, ht]
    by_cases hk : a.order_number = o ∧ a.upc = u
    · rw [if_pos ⟨ha.2.2, hk.1, hk.2⟩, if_pos hk]
    · rw [if_neg (fun e => hk ⟨e.2.1, e.2.2⟩), if_neg hk]

theorem sumAvailKey_poolAfterFilters_le {req : List (String × Int)} {pool0 : List PoolRow}
    (hpool : ∀ r ∈ pool0, 0 ≤ r.avail_qty) (o u : String) :
    sumAvailKey (poolAfterFilters req pool0) o u ≤ sumAvailKey pool0 o u := by
  refine le_trans (sumAvailKey_filter_le _ ?_ o u) (sumAvailKey_filter_le _ hpool o u)
  intro r hr
  exact hpool r (List.mem_of_mem_filter hr)

theorem allocate_nil_pool : ∀ req : List (String × Int), allocate req [] = ([], req.filterMap (fun p => if 0 < p.2 then some p else none), []) := by
  intro req
  induction req with
  | nil => rfl
  | cons e rest ih =>
    obtain ⟨u, q⟩ := e
    simp only [allocate, allocOne, ih, List.filterMap_cons]
    by_cases hq : 0 < q
    · rw [if_pos hq, if_pos hq]
      simp
    · rw [if_neg hq, if_neg hq]
      simp

theorem ltCh_nil_append_cons (l m : List Char) (c : Char) : ltCh [] (l ++ c :: m) = true := by
  cases l <;> rfl

theorem map_fst_pair_map {α β : Type} (g : α → β) (l : List α) :
    ((l.map fun u => (u, g u)).map Prod.fst) = l := by
  induction l with
  | nil => rfl
  | cons a t ih => simp [ih]

theorem buildReq_keys_nodup (rows : List (String × Int)) :
    ((buildReq rows).map Prod.fst).Nodup := by
  unfold buildReq
  rw [map_fst_pair_map]
  exact ((List.perm_insertionSort StrLe _).symm).nodup (List.nodup_dedup _)

theorem buildReq_snd_nonneg {rows : List (String × Int)} {u : String} {q : Int}
    (h : (u, q) ∈ buildReq rows) : 0 ≤ q := by
  unfold buildReq at h
  rcases List.mem_map.mp h with ⟨k, _, he⟩
  injection he with he1 he2
  subst he2
  apply List.sum_nonneg
  intro x hx
  rcases List.mem_map.mp hx with ⟨p, hp, rfl⟩
  have hp2 := List.of_mem_filter (List.mem_of_mem_filter hp)
  simp only [decide_eq_true_eq] at hp2
  exact le_of_lt hp2.2

/-! ### The claims -/

/-- C3: the claim that `normalizeOrder` (`BR`) is idempotent for every
string is contradicted by the code: `BR "a[." = "[a[]"` while
`BR "[a[]" = "[a]"`, so a second application changes the value, against
the function's own docstring ("Bracket Order ID, idempotent"). -/
theorem BR_not_idempotent : BR (BR "a[.") ≠ BR "a[." := by decide

/-- C6: on the spec's concrete scenario — demand 15 of item
"0001112223334", supply `[("[100]", "2024-01-01", 10), ("[101]",
"2024-01-05", 10)]`, no prior ledger — the run allocates
`[("[100]", 10), ("[101]", 5)]`, emits no unfulfilled record, and
leaves "[101]" with `availableQty` 5. -/
theorem scenario_example_run :
    (run reqEx poolEx none).alloc.map (fun a => (a.order_number, a.qty)) =
        [("[100]", 10), ("[101]", 5)] ∧
      (run reqEx poolEx none).unfilled = [] ∧
      (run reqEx poolEx none).finalPool.map (fun r => (r.order_number, r.avail_qty)) =
        [("[100]", 0), ("[101]", 5)] := by
  refine ⟨?_, ?_, ?_⟩ <;> decide

/-- C7: no allocation row of any run carries an order id of the
denylist `EXCLUDE_ORDERS`: the pool is filtered before allocation, so
a denylisted SupplyRecord never appears in any AllocationResult. -/
theorem excluded_orders_never_allocated (req : List (String × Int)) (pool0 : List PoolRow)
    (hist : Option (List HistRow)) (a : AllocRow) (h : a ∈ (run req pool0 hist).alloc) :
    a.order_number ∉ EXCLUDE_ORDERS :=
  run_alloc_not_excluded h

theorem excluded_orders_never_allocated_witness :
    ((⟨"[100]", "2024-01-01", "0001112223334", 10⟩ : AllocRow) ∈ (run reqEx poolEx none).alloc) ∧
      (⟨"[100]", "2024-01-01", "0001112223334", 10⟩ : AllocRow).order_number ∉ EXCLUDE_ORDERS :=
  ⟨by decide, excluded_orders_never_allocated reqEx poolEx none _ (by decide)⟩

/-- C8: every supply-pool record built from a ledger row takes its
OrderId from the secondary confirmation field when that field is
non-empty after trimming, else from the primary order-id field, and
the chosen value is normalized with `BR`. -/
theorem order_id_prefers_confirmation (rows : List LedgerRow) (out : PoolRow)
    (h : out ∈ buildPool rows) :
    ∃ r ∈ rows, out.order_number =
      BR (if pyStrip r.thankYou ≠ "" then r.thankYou else r.orderId) := by
  rcases List.mem_flatMap.mp h with ⟨r, hr, hm⟩
  refine ⟨r, hr, ?_⟩
  unfold expandRow at hm
  by_cases hg : selectOrderId r = "" ∨ r.cell = ""
  · rw [if_pos hg] at hm
    cases hm
  · rw [if_neg hg] at hm
    rcases List.mem_filterMap.mp hm with ⟨ln, _, hmap⟩
    rcases Option.map_eq_some'.mp hmap with ⟨p, _, rfl⟩
    rfl

theorem order_id_prefers_confirmation_witness :
    ((⟨"789", "[456]", "", 2⟩ : PoolRow) ∈ buildPool ledgerThY) ∧
      (∃ r ∈ ledgerThY, (⟨"789", "[456]", "", 2⟩ : PoolRow).order_number =
        BR (if pyStrip r.thankYou ≠ "" then r.thankYou else r.orderId)) :=
  ⟨by decide, order_id_prefers_confirmation ledgerThY _ (by decide)⟩

/-- C10: given a pool of non-negative availabilities (as the pool
builder produces), every allocation row's quantity is strictly
positive, no row of the final pool has negative `avail_qty`, and the
consumption-deduction clips at zero and drops non-positive rows, so
every reconciled row is strictly positive. -/
theorem alloc_positive_avail_clipped (req : List (String × Int)) (pool0 : List PoolRow)
    (hist : Option (List HistRow)) (hpool : ∀ r ∈ pool0, 0 ≤ r.avail_qty) :
    (∀ a ∈ (run req pool0 hist).alloc, 0 < a.qty) ∧
      (∀ r ∈ (run req pool0 hist).finalPool, 0 ≤ r.avail_qty) ∧
      (∀ (h : List HistRow), ∀ r ∈ applyHistory h (poolAfterFilters req pool0),
        0 < r.avail_qty) := by
  refine ⟨allocate_alloc_pos req _, ?_, ?_⟩
  · exact allocate_fp_nonneg req _ (runPool_nonneg hpool)
  · intro h r hr
    exact applyHistory_pos hr

theorem alloc_positive_avail_clipped_witness :
    (∀ r ∈ poolEx, 0 ≤ r.avail_qty) ∧
      ((∀ a ∈ (run reqEx poolEx none).alloc, 0 < a.qty) ∧
        (∀ r ∈ (run reqEx poolEx none).finalPool, 0 ≤ r.avail_qty) ∧
        (∀ (h : List HistRow), ∀ r ∈ applyHistory h (poolAfterFilters reqEx poolEx),
          0 < r.avail_qty)) :=
  ⟨by decide, alloc_positive_avail_clipped reqEx poolEx none (by decide)⟩

/-- C2: conservation — for every item of the aggregated demand, the
quantity allocated for it in the run plus its remaining unfulfilled
quantity equals its requested quantity, over any pool and history. -/
theorem allocation_conservation (rows : List (String × Int)) (pool0 : List PoolRow)
    (hist : Option (List HistRow)) (u : String) (q : Int)
    (hm : (u, q) ∈ buildReq rows) :
    sumAllocUpc (run (buildReq rows) pool0 hist).alloc u +
      unfSum (run (buildReq rows) pool0 hist).unfilled u = q :=
  allocate_accounting (buildReq rows) (runPool (buildReq rows) pool0 hist) u q hm
    (buildReq_snd_nonneg hm) (buildReq_keys_nodup rows)

theorem allocation_conservation_witness :
    (("0001112223334", (15 : Int)) ∈ buildReq [("0001112223334", 15)]) ∧
      sumAllocUpc (run (buildReq [("0001112223334", 15)]) poolEx none).alloc "0001112223334" +
        unfSum (run (buildReq [("0001112223334", 15)]) poolEx none).unfilled "0001112223334" =
        15 :=
  ⟨by decide, allocation_conservation [("0001112223334", 15)] poolEx none _ _ (by decide)⟩

/-- C5: the pool the allocator walks is sorted per item by
(orderTimestamp ascending, OrderId ascending as tie-break), and the
allocator exhausts an earlier record of an item (drives its
availability to zero) before any later record of that item loses a
single unit. -/
theorem fifo_ordering_and_exhaustion (req : List (String × Int)) (pool0 : List PoolRow)
    (hist : Option (List HistRow)) (hpool : ∀ r ∈ pool0, 0 ≤ r.avail_qty) :
    (∀ i j ri rj, i < j → (runPool req pool0 hist).get? i = some ri →
        (runPool req pool0 hist).get? j = some rj → ri.upc = rj.upc →
        ltCh ri.datetime_ordered.data rj.datetime_ordered.data = true ∨
          (ri.datetime_ordered = rj.datetime_ordered ∧
            leCh ri.order_number.data rj.order_number.data = true)) ∧
    (∀ i j ri rj ri' rj', i < j → (runPool req pool0 hist).get? i = some ri →
        (runPool req pool0 hist).get? j = some rj →
        (run req pool0 hist).finalPool.get? i = some ri' →
        (run req pool0 hist).finalPool.get? j = some rj' →
        ri.upc = rj.upc → rj'.avail_qty < rj.avail_qty → ri'.avail_qty = 0) := by
  constructor
  · intro i j ri rj hij hi hj hu
    exact keyLe_same_upc (sorted_rel_get? (sortPool_sorted _) hij hi hj) hu
  · intro i j ri rj ri' rj' hij hi hj hi' hj' hu hlt
    have he : (run req pool0 hist).finalPool =
        (allocate req (runPool req pool0 hist)).2.2 := rfl
    rw [he] at hi' hj'
    have h1 : ri'.avail_qty ≤ 0 :=
      allocate_exhaust req (runPool req pool0 hist) i j ri rj ri' rj' hij hi hj hi' hj' hu hlt
    have h2 : 0 ≤ ri'.avail_qty :=
      allocate_fp_nonneg req _ (runPool_nonneg hpool) ri' (List.get?_mem hi')
    omega

theorem fifo_ordering_and_exhaustion_witness :
    (∀ r ∈ poolEx, 0 ≤ r.avail_qty) ∧
      (⟨"0001112223334", "[100]", "2024-01-01", 0⟩ : PoolRow).avail_qty = 0 :=
  ⟨by decide,
    (fifo_ordering_and_exhaustion reqEx poolEx none (by decide)).2 0 1
      ⟨"0001112223334", "[100]", "2024-01-01", 10⟩
      ⟨"0001112223334", "[101]", "2024-01-05", 10⟩
      ⟨"0001112223334", "[100]", "2024-01-01", 0⟩
      ⟨"0001112223334", "[101]", "2024-01-05", 5⟩
      (by decide) (by decide) (by decide) (by decide) (by decide) rfl (by decide)⟩

/-- C9: a supply record whose timestamp fails to parse gets the empty
string as its sort key; the empty string sorts lexicographically
before every formatted "YYYY-MM-DD HH:MM:SS" timestamp, so within an
item the empty-key records come first in the sorted pool and are
exhausted before any positive allocation touches a record with a
parseable timestamp. -/
theorem unparseable_ts_sort_first_consumed_first (req : List (String × Int))
    (pool0 : List PoolRow) (hist : Option (List HistRow))
    (hpool : ∀ r ∈ pool0, 0 ≤ r.avail_qty) :
    canonTs none = "" ∧
      (∀ d : PyDateTime, ltCh (String.data "") (formatDt d).data = true) ∧
      (∀ i j ri rj, i < j → (runPool req pool0 hist).get? i = some ri →
        (runPool req pool0 hist).get? j = some rj → ri.upc = rj.upc →
        rj.datetime_ordered = "" → ri.datetime_ordered = "") ∧
      (∀ i j ri rj ri' rj', (runPool req pool0 hist).get? i = some ri →
        (runPool req pool0 hist).get? j = some rj →
        (run req pool0 hist).finalPool.get? i = some ri' →
        (run req pool0 hist).finalPool.get? j = some rj' →
        ri.upc = rj.upc → ri.datetime_ordered = "" → rj.datetime_ordered ≠ "" →
        rj'.avail_qty < rj.avail_qty → ri'.avail_qty = 0) := by
  refine ⟨rfl, ?_, ?_, ?_⟩
  · intro d
    exact ltCh_nil_append_cons _ _ '-'
  · intro i j ri rj hij hi hj hu hj0
    have hk := keyLe_same_upc (sorted_rel_get? (sortPool_sorted _) hij hi hj) hu
    rcases hk with h | ⟨h, _⟩
    · rw [hj0] at h
      rw [show ("" : String).data = [] from rfl, ltCh_nil_right] at h
      cases h
    · exact h.trans hj0
  · intro i j ri rj ri' rj' hi hj hi' hj' hu hi0 hne hlt
    rcases Nat.lt_trichotomy i j with hij | rfl | hji
    · have he : (run req pool0 hist).finalPool =
          (allocate req (runPool req pool0 hist)).2.2 := rfl
      rw [he] at hi' hj'
      have h1 : ri'.avail_qty ≤ 0 :=
        allocate_exhaust req (runPool req pool0 hist) i j ri rj ri' rj' hij hi hj hi' hj'
          hu hlt
      have h2 : 0 ≤ ri'.avail_qty :=
        allocate_fp_nonneg req _ (runPool_nonneg hpool) ri' (List.get?_mem hi')
      omega
    · rw [hi] at hj
      injection hj with hj
      rw [hj] at hi0
      exact absurd hi0 hne
    · have hk := keyLe_same_upc (sorted_rel_get? (sortPool_sorted _) hji hj hi) hu.symm
      rcases hk with h | ⟨h, _⟩
      · rw [hi0] at h
        rw [show ("" : String).data = [] from rfl, ltCh_nil_right] at h
        cases h
      · exact absurd (h.trans hi0) hne

theorem unparseable_ts_sort_first_consumed_first_witness :
    (∀ r ∈ poolEx, 0 ≤ r.avail_qty) ∧
      (canonTs none = "" ∧ ltCh (String.data "") (formatDt ⟨2024, 1, 1, 0, 0, 0⟩).data = true) :=
  ⟨by decide,
    (unparseable_ts_sort_first_consumed_first reqEx poolEx none (by decide)).1,
    (unparseable_ts_sort_first_consumed_first reqEx poolEx none (by decide)).2.1
      ⟨2024, 1, 1, 0, 0, 0⟩⟩

/-- C1 counterexample: the raw order id "a[." of the order ledger
normalizes to "[a[]", which `BR` maps to "[a]" when the history is
re-normalized; the history join therefore misses the key, the second
run re-allocates the same 3 units, and the full ledger (prior rows
plus the second run's batch) holds 6 units against an original supply
of 3 for the key ("[a[]", "5"). -/
theorem no_over_allocation_fails_on_unstable_ids :
    ¬ (histSum (appendHistory (some histBad1)
          (run reqBad (buildPool ledgerBad) (some histBad1)).alloc) "[a[]" "5" ≤
        sumAvailKey (buildPool ledgerBad) "[a[]" "5") := by decide

/-- C1 (amended): for every (OrderId, ItemId), the cumulative
allocatedQty across the ledger history (prior persisted rows plus the
batch appended by the current run) never exceeds that order-item's
original supply quantity, provided the persisted rows carry
normalization-stable identifiers (`BR`/`D` fixed points) with
non-negative quantities and themselves respect the bound — the
condition the BR-renormalization bug of the counterexample breaks. -/
theorem no_over_allocation_of_stable_history (req : List (String × Int))
    (pool0 : List PoolRow) (hist : Option (List HistRow))
    (hpool : ∀ r ∈ pool0, 0 ≤ r.avail_qty)
    (hhist : ∀ r ∈ hist.getD [], BR r.order_number = r.order_number ∧
      D r.upc = r.upc ∧ 0 ≤ r.qty)
    (hbound : ∀ r ∈ hist.getD [],
      histSum (hist.getD []) r.order_number r.upc ≤
        sumAvailKey pool0 r.order_number r.upc) :
    ∀ o u, histSum (appendHistory hist (run req pool0 hist).alloc) o u ≤
      sumAvailKey pool0 o u := by
  intro o u
  have hrw : appendHistory hist (run req pool0 hist).alloc =
      hist.getD [] ++ (run req pool0 hist).alloc.map
        (fun x => ⟨x.order_number, x.upc, x.qty⟩) := rfl
  rw [hrw, histSum_append, histSum_map_alloc]
  have hQnn : 0 ≤ sumAvailKey pool0 o u := sumAvailKey_nonneg hpool o u
  have hHle : histSum (hist.getD []) o u ≤ sumAvailKey pool0 o u := by
    by_cases hex : ∃ r ∈ hist.getD [], r.order_number = o ∧ r.upc = u
    · rcases hex with ⟨r, hr, e1, e2⟩
      have hb := hbound r hr
      rwa [e1, e2] at hb
    · push_neg at hex
      rw [histSum_eq_zero (fun r hr hc => hex r hr hc.1 hc.2)]
      exact hQnn
  have hHnn : 0 ≤ histSum (hist.getD []) o u :=
    histSum_nonneg (fun r hr => (hhist r hr).2.2) o u
  have hA : sumAllocKey (run req pool0 hist).alloc o u +
      sumAvailKey (run req pool0 hist).finalPool o u =
        sumAvailKey (runPool req pool0 hist) o u :=
    allocate_key_conserve req (runPool req pool0 hist) o u
  have hfpnn : 0 ≤ sumAvailKey (run req pool0 hist).finalPool o u :=
    sumAvailKey_nonneg (allocate_fp_nonneg req _ (runPool_nonneg hpool)) o u
  have hS2 := @sumAvailKey_poolAfterFilters_le req pool0 hpool o u
  cases hist with
  | none =>
    have hP : sumAvailKey (runPool req pool0 none) o u =
        sumAvailKey (poolAfterFilters req pool0) o u :=
      sumAvailKey_perm (sortPool_perm _) o u
    have hH0 : histSum ((none : Option (List HistRow)).getD []) o u = 0 := rfl
    omega
  | some h0 =>
    have hP : sumAvailKey (runPool req pool0 (some h0)) o u =
        sumAvailKey (applyHistory h0 (poolAfterFilters req pool0)) o u :=
      sumAvailKey_perm (sortPool_perm _) o u
    by_cases hoex : o ∈ EXCLUDE_ORDERS
    · have hA0 : sumAllocKey (run req pool0 (some h0)).alloc o u = 0 :=
        sumAllocKey_eq_zero
          (fun a ha he => (run_alloc_not_excluded ha) (he.symm ▸ hoex)) u
      omega
    · have hceq : usedQty h0 o u = histSum h0 o u :=
        usedQty_eq_histSum (fun r hr => ⟨(hhist r hr).1, (hhist r hr).2.1⟩) hoex u
      have hclip : sumAvailKey (applyHistory h0 (poolAfterFilters req pool0)) o u =
          sumClip (poolAfterFilters req pool0) (usedQty h0 o u) o u :=
        applyHistory_sum h0 (poolAfterFilters req pool0) o u
      have hcnn : 0 ≤ usedQty h0 o u := by
        rw [hceq]
        exact histSum_nonneg (fun r hr => (hhist r hr).2.2) o u
      have hmax : sumClip (poolAfterFilters req pool0) (usedQty h0 o u) o u ≤
          max 0 (sumAvailKey (poolAfterFilters req pool0) o u - usedQty h0 o u) :=
        sumClip_le_max hcnn (poolAfterFilters_nonneg hpool) o u
      rw [hceq] at hmax hclip
      simp only [Option.getD_some] at hHle hHnn ⊢
      omega

theorem no_over_allocation_of_stable_history_witness :
    (∀ r ∈ poolEx, 0 ≤ r.avail_qty) ∧
      (∀ r ∈ (some histSmall).getD [], BR r.order_number = r.order_number ∧
        D r.upc = r.upc ∧ 0 ≤ r.qty) ∧
      (∀ r ∈ (some histSmall).getD [],
        histSum ((some histSmall).getD []) r.order_number r.upc ≤
          sumAvailKey poolEx r.order_number r.upc) ∧
      histSum (appendHistory (some histSmall)
          (run reqEx poolEx (some histSmall)).alloc) "[100]" "0001112223334" ≤
        sumAvailKey poolEx "[100]" "0001112223334" :=
  ⟨by decide, by decide, by decide,
    no_over_allocation_of_stable_history reqEx poolEx (some histSmall) (by decide)
      (by decide) (by decide) "[100]" "0001112223334"⟩

/-- C4 counterexample: running the spec's own scenario twice with
identical inputs is not a no-op — the first run leaves 5 genuinely
available units on "[101]", and the second run allocates them. -/
theorem rerun_not_empty_with_leftover_supply :
    (run reqEx poolEx (some histEx1)).alloc =
        [⟨"[101]", "2024-01-05", "0001112223334", 5⟩] ∧
      (run reqEx poolEx (some histEx1)).alloc ≠ [] := by
  exact ⟨by decide, by decide⟩

/-- C4 (amended): re-running with identical inputs produces an empty
AllocationResult once the first run has marked all supply consumed
(every final-pool availability is zero) and the pool's identifiers
are normalization-stable (`BR`/`D` fixed points), the condition under
which the history join finds every key again. -/
theorem rerun_empty_after_exhaustion (req : List (String × Int)) (pool0 : List PoolRow)
    (hist0 : Option (List HistRow))
    (hpool : ∀ r ∈ pool0, 0 ≤ r.avail_qty)
    (hfix : ∀ r ∈ pool0, BR r.order_number = r.order_number ∧ D r.upc = r.upc)
    (hexh : ∀ r ∈ (run req pool0 hist0).finalPool, r.avail_qty = 0) :
    (run req pool0 (some (appendHistory hist0 (run req pool0 hist0).alloc))).alloc = [] := by
  have hb : ∀ a ∈ (run req pool0 hist0).alloc,
      BR a.order_number = a.order_number ∧ D a.upc = a.upc ∧
        a.order_number ∉ EXCLUDE_ORDERS := by
    intro a ha
    rcases run_alloc_src ha with ⟨x, hx, e1, e2⟩
    have hx0 := hfix x (poolAfterFilters_sub hx)
    exact ⟨by rw [e1]; exact hx0.1, by rw [e2]; exact hx0.2, run_alloc_not_excluded ha⟩
  have hconserve : ∀ o u, sumAllocKey (run req pool0 hist0).alloc o u +
      sumAvailKey (run req pool0 hist0).finalPool o u =
        sumAvailKey (runPool req pool0 hist0) o u :=
    fun o u => allocate_key_conserve req (runPool req pool0 hist0) o u
  have hAeq : ∀ o u, sumAllocKey (run req pool0 hist0).alloc o u =
      sumAvailKey (runPool req pool0 hist0) o u := by
    intro o u
    have h1 := hconserve o u
    have h2 := sumAvailKey_of_all_zero hexh o u
    omega
  have hempty : applyHistory (appendHistory hist0 (run req pool0 hist0).alloc)
      (poolAfterFilters req pool0) = [] := by
    unfold applyHistory
    rw [List.filter_eq_nil_iff]
    intro r hr
    rcases List.mem_map.mp hr with ⟨x, hx, rfl⟩
    simp only [decide_eq_true_eq, not_lt]
    show max 0 (x.avail_qty -
        usedQty (appendHistory hist0 (run req pool0 hist0).alloc)
          x.order_number x.upc) ≤ 0
    have hsplit : usedQty (appendHistory hist0 (run req pool0 hist0).alloc)
        x.order_number x.upc =
        usedQty (hist0.getD []) x.order_number x.upc +
          sumAllocKey (run req pool0 hist0).alloc x.order_number x.upc := by
      have happ := usedQty_append (hist0.getD [])
        ((run req pool0 hist0).alloc.map fun y => ⟨y.order_number, y.upc, y.qty⟩)
        x.order_number x.upc
      rw [show appendHistory hist0 (run req pool0 hist0).alloc =
          hist0.getD [] ++ (run req pool0 hist0).alloc.map
            (fun y => ⟨y.order_number, y.upc, y.qty⟩) from rfl, happ,
        usedQty_map_alloc hb]
    rw [hsplit, hAeq]
    cases hist0 with
    | none =>
      have hperm : sumAvailKey (runPool req pool0 none) x.order_number x.upc =
          sumAvailKey (poolAfterFilters req pool0) x.order_number x.upc :=
        sumAvailKey_perm (sortPool_perm _) _ _
      have hsingle : x.avail_qty ≤
          sumAvailKey (poolAfterFilters req pool0) x.order_number x.upc :=
        sumAvailKey_single_le (poolAfterFilters_nonneg hpool) hx
      have h00 : usedQty ((none : Option (List HistRow)).getD [])
          x.order_number x.upc = 0 := rfl
      omega
    | some h0 =>
      have hperm : sumAvailKey (runPool req pool0 (some h0)) x.order_number x.upc =
          sumAvailKey (applyHistory h0 (poolAfterFilters req pool0))
            x.order_number x.upc :=
        sumAvailKey_perm (sortPool_perm _) _ _
      have hclip := applyHistory_sum h0 (poolAfterFilters req pool0)
        x.order_number x.upc
      have hsingle : max 0 (x.avail_qty - usedQty h0 x.order_number x.upc) ≤
          sumClip (poolAfterFilters req pool0) (usedQty h0 x.order_number x.upc)
            x.order_number x.upc :=
        sumClip_single_le hx
      have hgd : (some h0 : Option (List HistRow)).getD [] = h0 := rfl
      rw [hgd]
      omega
  have hrp : runPool req pool0
      (some (appendHistory hist0 (run req pool0 hist0).alloc)) = [] := by
    show sortPool (applyHistory (appendHistory hist0 (run req pool0 hist0).alloc)
      (poolAfterFilters req pool0)) = []
    rw [hempty]
    rfl
  show (allocate req (runPool req pool0
      (some (appendHistory hist0 (run req pool0 hist0).alloc)))).1 = []
  rw [hrp, allocate_nil_pool]

theorem rerun_empty_after_exhaustion_witness :
    (∀ r ∈ poolEx, 0 ≤ r.avail_qty) ∧
      (∀ r ∈ poolEx, BR r.order_number = r.order_number ∧ D r.upc = r.upc) ∧
      (∀ r ∈ (run reqBig poolEx none).finalPool, r.avail_qty = 0) ∧
      (run reqBig poolEx (some (appendHistory none (run reqBig poolEx none).alloc))).alloc =
        [] :=
  ⟨by decide, by decide, by decide,
    rerun_empty_after_exhaustion reqBig poolEx none (by decide) (by decide) (by decide)⟩
